import Mathlib

/-!
Verification of the historical-snapshot job-listing extraction pipeline
(`wayback_wnba_scraper.py`) against its design document.

The Python source is shallowly embedded below: pure functions become Lean
functions over `String` / `List Char`; the streaming HTML scanner becomes a
fold over an explicit event stream (the events Python's `html.parser`
delivers to the handler methods); the network fetcher becomes a function of
an oracle assigning an outcome to each attempt.  Python string comparison
(code-point lexicographic) is embedded as `lexLt`, and Python's `in`
substring test as `strContains`, because the built-in `String` order does
not reduce in the kernel.
-/

namespace WaybackScraper

/-- Code-point lexicographic strict order on character lists: the order
Python uses to compare strings. -/
def lexLt : List Char → List Char → Bool
  | [], [] => false
  | [], _ :: _ => true
  | _ :: _, [] => false
  | a :: as, b :: bs =>
      if a.toNat < b.toNat then true
      else if b.toNat < a.toNat then false
      else lexLt as bs

/-- Python `a < b` on strings. -/
def strLt (a b : String) : Bool := lexLt a.toList b.toList

/-- Python `a <= b` on strings (total order, so `¬ b < a`). -/
def strLe (a b : String) : Bool := ! strLt b a

/-- Python `str.lower()` restricted to the ASCII case mapping. -/
def lowerStr (s : String) : String := String.mk (s.toList.map Char.toLower)

/-- The characters Python's `str.strip()` / `str.split()` treat as
whitespace (ASCII fragment). -/
def isPyWs (c : Char) : Bool :=
  c = ' ' || c = '\t' || c = '\n' || c = '\r' || c.val = 11 || c.val = 12

/-- Python `str.strip()`. -/
def pyStrip (s : String) : String :=
  String.mk (((s.toList.dropWhile isPyWs).reverse.dropWhile isPyWs).reverse)

/-- Match `pat` against the head of `s`; on success return the rest of `s`. -/
def headMatch : List Char → List Char → Option (List Char)
  | [], s => some s
  | _ :: _, [] => none
  | p :: ps, c :: cs => if p = c then headMatch ps cs else none

/-- Case-insensitive (ASCII) variant of `headMatch`. -/
def ciHeadMatch : List Char → List Char → Option (List Char)
  | [], s => some s
  | _ :: _, [] => none
  | p :: ps, c :: cs => if p.toLower = c.toLower then ciHeadMatch ps cs else none

/-- Does `pat` occur as a contiguous run inside `s`?  (Python `pat in s`.) -/
def containsSeq (pat : List Char) : List Char → Bool
  | [] => (headMatch pat []).isSome
  | c :: rest => (headMatch pat (c :: rest)).isSome || containsSeq pat rest

/-- Python `pat in hay` for strings. -/
def strContains (hay pat : String) : Bool := containsSeq pat.toList hay.toList

/-- Python `dict.get(k, "")` over an optional field. -/
def getS (o : Option String) : String := o.getD ""

/-!  Snapshot descriptors and the monthly reduction
(`dedupe_snapshots_by_month`). -/

/-- One CDX snapshot descriptor row (`discover_snapshots` returns dicts with
these fields). -/
structure Snap where
  timestamp : String
  original : String := ""
  statuscode : String := ""
  mimetype : String := ""
  digest : String := ""
deriving DecidableEq, Repr

/-- Embeds `snap["timestamp"][:6]`: the YYYYMM month key. -/
def monthKey (s : Snap) : String := s.timestamp.take 6

/-- Insert a snapshot into a list sorted ascending by timestamp, after all
entries whose timestamp is `<=` (the placement Python's stable `sorted`
with `key=lambda s: s["timestamp"]` produces). -/
def insertByTs : List Snap → Snap → List Snap
  | [], x => [x]
  | y :: ys, x => if strLe y.timestamp x.timestamp then y :: insertByTs ys x
                  else x :: y :: ys

/-- Python `sorted(l, key=lambda s: s["timestamp"])`. -/
def sortByTs (l : List Snap) : List Snap := l.foldl insertByTs []

/-- One step of the `by_month` dict build in `dedupe_snapshots_by_month`:
`if month_key not in by_month: by_month[month_key] = snap`. -/
def monthStep (acc : List (String × Snap)) (s : Snap) : List (String × Snap) :=
  if (acc.find? (fun p => p.1 = monthKey s)).isSome then acc
  else acc ++ [(monthKey s, s)]

/-- Embeds `dedupe_snapshots_by_month`: keep the first snapshot seen for each
month key, then sort the kept values by timestamp. -/
def dedupe_snapshots_by_month (snaps : List Snap) : List Snap :=
  sortByTs ((snaps.foldl monthStep []).map Prod.snd)

/-!  Job records, team classification (`classify_team`) and deduplication
(`deduplicate_jobs`). -/

/-- A job dict as built by the extractor: every field optional, `none`
standing for an absent dict key. -/
structure Job where
  title : Option String := none
  team : Option String := none
  location : Option String := none
  url : Option String := none
  snapshot_date : Option String := none
  wayback_url : Option String := none
  original_url : Option String := none
deriving DecidableEq, Repr

/-- The fixed `WNBA_TEAMS` roster, in source order. -/
def WNBA_TEAMS : List String :=
  ["Atlanta Dream", "Chicago Sky", "Connecticut Sun", "Dallas Wings",
   "Golden State Valkyries", "Indiana Fever", "Las Vegas Aces",
   "Los Angeles Sparks", "Minnesota Lynx", "New York Liberty",
   "Phoenix Mercury", "Portland", "Seattle Storm", "Washington Mystics",
   "WNBA League Office", "WNBA"]

/-- Embeds `team.lower().replace(" ", "-")`: the slug form checked against URLs. -/
def slugForm (team : String) : String :=
  String.mk ((lowerStr team).toList.map (fun c => if c = ' ' then '-' else c))

/-- The search text `f"{title} {original_url} {url}"` of `classify_team`,
lower-cased. -/
def classifyText (job : Job) : String :=
  lowerStr (getS job.title ++ " " ++ getS job.original_url ++ " " ++ getS job.url)

/-- Does a roster entry match the search text, either in lower-cased form
or in slug form?  (The body of the roster loop in `classify_team`.) -/
def teamMatches (textLower team : String) : Bool :=
  strContains textLower (lowerStr team) || strContains textLower (slugForm team)

/-- Embeds `classify_team`: explicit non-empty `team` field wins; otherwise the
first roster entry matching the concatenated title/URL text; otherwise the
sentinel `"Unknown / WNBA General"`. -/
def classify_team (job : Job) : String :=
  if getS job.team ≠ "" then getS job.team
  else
    match WNBA_TEAMS.find? (teamMatches (classifyText job)) with
    | some team => team
    | none => "Unknown / WNBA General"

/-- The dedup key of `deduplicate_jobs`:
`(job.get("title", "").lower().strip(), classify_team(job).lower())`. -/
def dedupKey (job : Job) : String × String :=
  (pyStrip (lowerStr (getS job.title)), lowerStr (classify_team job))

/-- Embeds `job.get("snapshot_date", "9999")`. -/
def effDate (job : Job) : String := job.snapshot_date.getD "9999"

/-- One iteration of the `seen` dict build in `deduplicate_jobs`: insert a
new key at the end, or replace the stored record in place when the new one
has a strictly earlier snapshot date. -/
def dedupStep (seen : List ((String × String) × Job)) (job : Job) :
    List ((String × String) × Job) :=
  match seen.find? (fun p => p.1 = dedupKey job) with
  | none => seen ++ [(dedupKey job, job)]
  | some p =>
      if strLt (effDate job) (effDate p.2) then
        seen.map (fun q => if q.1 = dedupKey job then (dedupKey job, job) else q)
      else seen

/-- The `seen` dict after processing the whole list. -/
def dedupAcc (jobs : List Job) : List ((String × String) × Job) :=
  jobs.foldl dedupStep []

/-- Embeds `deduplicate_jobs`: `list(seen.values())` in insertion order. -/
def deduplicate_jobs (jobs : List Job) : List Job :=
  (dedupAcc jobs).map Prod.snd

/-- Observer: the unique surviving record for a dedup key, read off the
public output of `deduplicate_jobs`. -/
def survivorFor (jobs : List Job) (k : String × String) : Option Job :=
  (deduplicate_jobs jobs).find? (fun j => dedupKey j = k)

/-- Modelled from the spec: the record that §4.6 says must survive for one
group — the first record in arrival order attaining the lexicographically
smallest snapshot date (`pickEarlier` keeps the incumbent on ties). -/
def pickEarlier (cur j : Job) : Job :=
  if strLt (effDate j) (effDate cur) then j else cur

/-- Modelled from the spec: first-seen record with minimal snapshot date in
a list (the survivor §4.6 prescribes for the list of one key's records). -/
def firstMin : List Job → Option Job
  | [] => none
  | j :: rest => some (rest.foldl pickEarlier j)

/-!  The resilient fetcher (`fetch_url`), embedded against an oracle giving
the outcome of each attempt.  The returned triple is (result, the list of
back-off waits performed in order, the number of requests issued). -/

/-- Outcome of one HTTP attempt. -/
inductive FetchOutcome where
  | success (body : String)
  | httpError (code : Nat)
  | netError
deriving DecidableEq, Repr

/-- The retry loop of `fetch_url`, from attempt number `attempt` on. -/
def fetchGo (oracle : Nat → FetchOutcome) (retries attempt : Nat)
    (waits : List Nat) : Option String × List Nat × Nat :=
  if attempt < retries then
    match oracle attempt with
    | .success body => (some body, waits, attempt + 1)
    | .httpError 429 => fetchGo oracle retries (attempt + 1) (waits ++ [2 ^ (attempt + 2)])
    | .httpError code =>
        if (code = 404 ∨ code = 503) ∧ attempt < retries - 1 then
          fetchGo oracle retries (attempt + 1) (waits ++ [2 ^ (attempt + 1)])
        else (none, waits, attempt + 1)
    | .netError => fetchGo oracle retries (attempt + 1) (waits ++ [2 ^ (attempt + 1)])
  else (none, waits, attempt)
termination_by retries - attempt
decreasing_by all_goals omega

/-- Embeds `fetch_url(url, retries)` with the network abstracted into `oracle`. -/
def fetch_url (oracle : Nat → FetchOutcome) (retries : Nat := 3) :
    Option String × List Nat × Nat :=
  fetchGo oracle retries 0 []

/-!  `clean_wayback_url`: the embedded semantics of
`re.search(r"/web/\d+(?:id_)?/(https?://.+)", url)`. -/

/-- Attempt the wrapper pattern at the head of `s`; on success return the
text of capture group 1 (`https?://.+`, the `.+` greedy up to the first
newline).  Backtracking cannot help this pattern at a fixed start: after
the maximal digit run the next character is a non-digit, so shorter runs
fail on `(?:id_)?/`; the quote-free alternatives `s://` vs `://` are
mutually exclusive; nothing follows the final greedy `.+`. -/
def matchWrapAt (s : List Char) : Option (List Char) :=
  match headMatch "/web/".toList s with
  | none => none
  | some s1 =>
      let digits := s1.takeWhile Char.isDigit
      if digits.isEmpty then none
      else
        let s2 := s1.dropWhile Char.isDigit
        let s3 := match headMatch "id_".toList s2 with
                  | some r => r
                  | none => s2
        match headMatch "/".toList s3 with
        | none => none
        | some s4 =>
            let scheme : Option Nat :=
              if (headMatch "https://".toList s4).isSome then some 8
              else if (headMatch "http://".toList s4).isSome then some 7
              else none
            match scheme with
            | none => none
            | some n =>
                let body := (s4.drop n).takeWhile (fun c => c ≠ '\n')
                if body.isEmpty then none
                else some (s4.take n ++ body)

/-- Embeds `re.search`: try the pattern at every start position, leftmost first. -/
def searchWrap : List Char → Option (List Char)
  | [] => none
  | c :: rest =>
      match matchWrapAt (c :: rest) with
      | some g => some g
      | none => searchWrap rest

/-- Embeds `clean_wayback_url`: return group 1 of the first wrapper match, or the
input unchanged when the pattern does not occur. -/
def clean_wayback_url (url : String) : String :=
  match searchWrap url.toList with
  | some g => String.mk g
  | none => url

/-!  The structural extractor (`TeamWorkOnlineParser`).  Python's
`html.parser` tokenizes the document and calls `handle_starttag`,
`handle_endtag` and `handle_data`; the token stream is embedded as a list
of events and the handler methods as state transformers. -/

/-- One tokenizer callback. -/
inductive HtmlEvent where
  | startTag (tag : String) (attrs : List (String × String))
  | endTag (tag : String)
  | text (s : String)
deriving DecidableEq, Repr

/-- The parser's mutable fields. -/
structure PState where
  jobs : List Job := []
  currentJob : Job := {}
  captureText : Bool := false
  captureTarget : Option String := none
  depth : Nat := 0
  inJobCard : Bool := false
  jobCardDepth : Nat := 0
  allLinks : List (String × String) := []
  textBuffer : List String := []
  tagStack : List String := []
deriving DecidableEq, Repr

/-- Embeds `dict(attrs).get(key, "")`: with duplicate attributes the last wins. -/
def attrGet (attrs : List (String × String)) (key : String) : String :=
  match attrs.reverse.find? (fun p => p.1 = key) with
  | some p => p.2
  | none => ""

/-- Embeds `_is_job_card_start`. -/
def is_job_card_start (tag cls : String) : Bool :=
  (tag = "div" || tag = "li" || tag = "article" || tag = "section") &&
  (["organization-portal__job", "opportunitysearchresult", "search-result",
    "job-listing", "job-card", "job-item", "opportunity-listing"].any
    (fun p => strContains (lowerStr cls) p))

/-- Embeds `_is_job_link`. -/
def is_job_link (href : String) : Bool :=
  strContains (lowerStr href) "/basketball-jobs/" ||
  (strContains (lowerStr href) "teamworkonline.com" &&
   strContains (lowerStr href) "/jobs/") ||
  strContains (lowerStr href) "/opening/"

/-- Embeds `_is_team_element` (the tag argument is unused in the source too). -/
def is_team_element (_tag cls : String) : Bool :=
  ["organization-portal__profile", "organization-name", "team-name",
   "employer", "company", "org-name"].any
    (fun p => strContains (lowerStr cls) p)

/-- Embeds `_is_location_element`. -/
def is_location_element (_tag cls : String) : Bool :=
  ["location", "city", "job-location"].any
    (fun p => strContains (lowerStr cls) p)

/-- Embeds `handle_starttag`. -/
def handle_starttag (st : PState) (tag : String)
    (attrs : List (String × String)) : PState :=
  let cls := attrGet attrs "class"
  let href := attrGet attrs "href"
  let st := { st with depth := st.depth + 1, tagStack := st.tagStack ++ [tag] }
  let st :=
    if is_job_card_start tag cls then
      { st with inJobCard := true, jobCardDepth := st.depth, currentJob := {} }
    else st
  let st :=
    if st.inJobCard then
      let st :=
        if tag = "a" ∧ href ≠ "" ∧ is_job_link href then
          { st with currentJob := { st.currentJob with url := some href },
                    captureText := true, captureTarget := some "title",
                    textBuffer := [] }
        else st
      let st :=
        if is_team_element tag cls then
          { st with captureText := true, captureTarget := some "team",
                    textBuffer := [] }
        else st
      let st :=
        if is_location_element tag cls then
          { st with captureText := true, captureTarget := some "location",
                    textBuffer := [] }
        else st
      st
    else st
  if tag = "a" ∧ href ≠ "" ∧ is_job_link href then
    let st := { st with allLinks := st.allLinks ++ [(href, "")] }
    if ¬ st.inJobCard then
      { st with captureText := true, captureTarget := some "_link_text",
                textBuffer := [] }
    else st
  else st

/-- Words of a string in the Python `str.split()` sense: maximal runs of
non-whitespace characters. -/
def pyWordsAux (cur : List Char) (acc : List (List Char)) :
    List Char → List (List Char)
  | [] => if cur.isEmpty then acc else acc ++ [cur]
  | c :: rest =>
      if isPyWs c then
        if cur.isEmpty then pyWordsAux [] acc rest
        else pyWordsAux [] (acc ++ [cur]) rest
      else pyWordsAux (cur ++ [c]) acc rest

/-- Embeds `" ".join(ws)` over character lists. -/
def joinSpace : List (List Char) → List Char
  | [] => []
  | [w] => w
  | w :: x :: ws => w ++ ' ' :: joinSpace (x :: ws)

/-- Embeds `" ".join("".join(buffer).split()).strip()` from `handle_endtag`. -/
def normText (buffer : List String) : String :=
  pyStrip (String.mk (joinSpace (pyWordsAux [] [] (String.join buffer).toList)))

/-- Embeds `self._all_links[-1]["text"] = text`, guarded on a non-empty list. -/
def setLastText (links : List (String × String)) (text : String) :
    List (String × String) :=
  match links.getLast? with
  | none => links
  | some l => links.dropLast ++ [(l.1, text)]

/-- First block of `handle_endtag`: close an active text capture when the
stack top matches, assigning the normalized text to its target. -/
def endtagCapture (st : PState) (tag : String) : PState :=
  if st.captureText ∧ st.tagStack.getLast? = some tag then
    let text := normText st.textBuffer
    let st :=
      if st.captureTarget = some "title" ∧ text ≠ "" then
        { st with currentJob := { st.currentJob with title := some text } }
      else if st.captureTarget = some "team" ∧ text ≠ "" then
        { st with currentJob := { st.currentJob with team := some text } }
      else if st.captureTarget = some "location" ∧ text ≠ "" then
        { st with currentJob := { st.currentJob with location := some text } }
      else if st.captureTarget = some "_link_text" ∧ text ≠ "" then
        { st with allLinks := setLastText st.allLinks text }
      else st
    { st with captureText := false, captureTarget := none, textBuffer := [] }
  else st

/-- Second block of `handle_endtag`: on leaving the job-card container,
emit the in-progress record when it has a non-empty title or url. -/
def endtagEmit (st : PState) : PState :=
  if st.inJobCard ∧ st.depth ≤ st.jobCardDepth then
    let st :=
      if getS st.currentJob.title ≠ "" ∨ getS st.currentJob.url ≠ "" then
        { st with jobs := st.jobs ++ [st.currentJob] }
      else st
    { st with inJobCard := false, currentJob := {} }
  else st

/-- Third block of `handle_endtag`: pop the tag stack and decrement the
depth (floored at zero). -/
def endtagPop (st : PState) : PState :=
  let st :=
    if st.tagStack ≠ [] then { st with tagStack := st.tagStack.dropLast }
    else st
  { st with depth := st.depth - 1 }

/-- Embeds `handle_endtag`: the three blocks in source order. -/
def handle_endtag (st : PState) (tag : String) : PState :=
  endtagPop (endtagEmit (endtagCapture st tag))

/-- Embeds `handle_data`. -/
def handle_data (st : PState) (s : String) : PState :=
  if st.captureText then { st with textBuffer := st.textBuffer ++ [s] } else st

/-- Dispatch one tokenizer event. -/
def stepEvent (st : PState) : HtmlEvent → PState
  | .startTag tag attrs => handle_starttag st tag attrs
  | .endTag tag => handle_endtag st tag
  | .text s => handle_data st s

/-- Embeds `parser.feed(html)` over the whole event stream. -/
def runParser (events : List HtmlEvent) : PState :=
  events.foldl stepEvent {}

/-!  `_team_from_url`: the embedded semantics of
`re.search(r"/basketball-jobs/([^/]+?)(?:jobs|team)?/", url, re.IGNORECASE)`.
The lazy group grows one character at a time; at each size the engine tries
the alternatives `jobs`, `team`, then the empty option, each followed by a
literal `/`. -/

/-- Does `(?:jobs|team)?/` match at `s` (case-insensitively)? -/
def tfuClose (s : List Char) : Bool :=
  (match ciHeadMatch "jobs".toList s with
   | some ('/' :: _) => true
   | _ => false) ||
  (match ciHeadMatch "team".toList s with
   | some ('/' :: _) => true
   | _ => false) ||
  (match s with
   | '/' :: _ => true
   | _ => false)

/-- Grow the lazy group `[^/]+?`, shortest first, returning the group text
of the first size that lets the rest of the pattern match. -/
def tfuGrow (g : List Char) : List Char → Option (List Char)
  | [] => none
  | c :: rest =>
      if c = '/' then none
      else if tfuClose rest then some (g ++ [c])
      else tfuGrow (g ++ [c]) rest

/-- Leftmost search for the `/basketball-jobs/` marker with a completing
group. -/
def tfuSearch : List Char → Option (List Char)
  | [] => none
  | c :: rest =>
      match ciHeadMatch "/basketball-jobs/".toList (c :: rest) with
      | some afterMk =>
          (match tfuGrow [] afterMk with
           | some g => some g
           | none => tfuSearch rest)
      | none => tfuSearch rest

/-- Python `slug.strip("-")`. -/
def stripDashes (s : String) : String :=
  String.mk (((s.toList.dropWhile (· = '-')).reverse.dropWhile (· = '-')).reverse)

/-- Python `word.capitalize()` (ASCII). -/
def pyCapitalize (s : String) : String :=
  match s.toList with
  | [] => ""
  | c :: rest => String.mk (c.toUpper :: rest.map Char.toLower)

/-- Python `slug.split("-")` (keeps empty pieces). -/
def splitDashAux (cur : List Char) (acc : List (List Char)) :
    List Char → List (List Char)
  | [] => acc ++ [cur]
  | c :: rest =>
      if c = '-' then splitDashAux [] (acc ++ [cur]) rest
      else splitDashAux (cur ++ [c]) acc rest

/-- Embeds `_slug_to_name`. -/
def slug_to_name (slug : String) : String :=
  String.mk (joinSpace ((splitDashAux [] [] slug.toList).map
    (fun w => (pyCapitalize (String.mk w)).toList)))

/-- Embeds `_team_from_url`. -/
def team_from_url (url : String) : Option String :=
  match tfuSearch url.toList with
  | none => none
  | some g =>
      let slug := stripDashes (String.mk g)
      if lowerStr slug ≠ "wnbateamjobs" ∧ lowerStr slug ≠ "wnba-team" then
        some (slug_to_name slug)
      else none

/-!  `_regex_fallback`: the embedded semantics of `finditer` with
`<a[^>]+href=["']([^"']*?/basketball-jobs/[^"']+)["'][^>]*>(.*?)</a>`
(IGNORECASE, DOTALL) and of `re.sub(r"<[^>]+>", "", text)`. -/

/-- A character the classes `[^"']` accept. -/
def notQuote (c : Char) : Bool := c ≠ '"' && c ≠ '\''

/-- Lazy `(.*?)` followed by `</a>`: split at the leftmost close tag. -/
def findClose (acc : List Char) : List Char → Option (List Char × List Char)
  | [] => none
  | c :: rest =>
      match ciHeadMatch "</a>".toList (c :: rest) with
      | some r => some (acc, r)
      | none => findClose (acc ++ [c]) rest

/-- After group 1: the closing quote, then greedy `[^>]*` and `>`, then the
inner text and the rest of the document.  Only the maximal `[^>]*` run can
succeed, because the class rejects exactly the character the following
literal demands. -/
def afterG1 (g1 : List Char) : List Char → Option (List Char × List Char × List Char)
  | [] => none
  | q :: w1 =>
      if q = '"' || q = '\'' then
        let run := w1.takeWhile (fun c => c ≠ '>')
        match w1.drop run.length with
        | '>' :: v => (findClose [] v).map (fun p => (g1, p.1, p.2))
        | _ => none
      else none

/-- Try to finish group 1 right here: the marker, then the greedy non-quote
run `[^"']+` (maximal, hence followed by a quote or the end). -/
def g1Here (acc u : List Char) : Option (List Char × List Char × List Char) :=
  match ciHeadMatch "/basketball-jobs/".toList u with
  | some afterMk =>
      let run := afterMk.takeWhile notQuote
      if run.isEmpty then none
      else afterG1 (acc ++ u.take 17 ++ run) (afterMk.drop run.length)
  | none => none

/-- The lazy head `[^"']*?` of group 1: shortest first, consuming only
non-quote characters. -/
def g1Scan (acc : List Char) : List Char → Option (List Char × List Char × List Char)
  | [] => none
  | c :: rest =>
      match g1Here acc (c :: rest) with
      | some r => some r
      | none => if notQuote c then g1Scan (acc ++ [c]) rest else none

/-- Embeds `href=` then an opening quote, then group 1. -/
def hrefAttempt (u0 : List Char) : Option (List Char × List Char × List Char) :=
  match ciHeadMatch "href=".toList u0 with
  | some (q :: u1) => if q = '"' || q = '\'' then g1Scan [] u1 else none
  | _ => none

/-- Greedy `[^>]+` before `href=`: try the longest 1-or-more non-`>` run
first, backing off one character at a time. -/
def hrefSearch (s2 : List Char) : Nat → Option (List Char × List Char × List Char)
  | 0 => none
  | k + 1 =>
      match hrefAttempt (s2.drop (k + 1)) with
      | some r => some r
      | none => hrefSearch s2 k

/-- One anchored match attempt: `<a`, then the rest of the pattern. -/
def attemptAt : List Char → Option (List Char × List Char × List Char)
  | c0 :: c :: rest =>
      if c0 = '<' ∧ c.toLower = 'a' then
        hrefSearch rest ((rest.takeWhile (fun x => x ≠ '>')).length)
      else none
  | _ => none

/-- Embeds `finditer`: leftmost matches, resuming after each match.  The fuel is
the input length, which bounds the number of scan steps. -/
def findIterF : Nat → List Char → List (List Char × List Char)
  | 0, _ => []
  | _ + 1, [] => []
  | fuel + 1, c :: rest =>
      match attemptAt (c :: rest) with
      | some (href, inner, after) => (href, inner) :: findIterF fuel after
      | none => findIterF fuel rest

/-- All matches of the job-anchor pattern, as (href, inner text) pairs. -/
def findIter (s : List Char) : List (List Char × List Char) :=
  findIterF s.length s

/-- Embeds `re.sub(r"<[^>]+>", "", text)`. -/
def stripTagsF : Nat → List Char → List Char
  | 0, s => s
  | _ + 1, [] => []
  | fuel + 1, c :: rest =>
      if c = '<' then
        let run := rest.takeWhile (fun x => x ≠ '>')
        match run, rest.drop run.length with
        | _ :: _, '>' :: after => stripTagsF fuel after
        | _, _ => c :: stripTagsF fuel rest
      else c :: stripTagsF fuel rest

/-- Remove every `<...>` tag from the inner text. -/
def stripTags (s : List Char) : List Char := stripTagsF s.length s

/-- The record both fallbacks build: title and url, plus a team when
`_team_from_url` infers one. -/
def mkFallbackJob (href text : String) : Job :=
  match team_from_url href with
  | some t => { title := some text, url := some href, team := some t }
  | none => { title := some text, url := some href }

/-- The loop body of `_regex_fallback`: keep a match whose stripped inner
text is non-empty and longer than 3 characters. -/
def regexStep (jobs : List Job) (m : List Char × List Char) : List Job :=
  let text := pyStrip (String.mk (stripTags m.2))
  if text ≠ "" ∧ 3 < text.length then jobs ++ [mkFallbackJob (String.mk m.1) text]
  else jobs

/-- Embeds `_regex_fallback`. -/
def regex_fallback (html : String) : List Job :=
  (findIter html.toList).foldl regexStep []

/-!  `extract_jobs_from_html`: the three-tier chain. -/

/-- The navigational-term denylist of the link-based fallback. -/
def SKIP_TERMS : List String :=
  ["sign in", "log in", "register", "home", "about",
   "contact", "privacy", "terms"]

/-- The loop body of the link-based fallback: keep a link with non-empty
text not matching the navigational denylist. -/
def linkStep (jobs : List Job) (l : String × String) : List Job :=
  if l.2 ≠ "" ∧ ¬ (SKIP_TERMS.any (fun skip => strContains (lowerStr l.2) skip)) then
    jobs ++ [mkFallbackJob l.1 l.2]
  else jobs

/-- The link-based fallback loop over the collected side list. -/
def linkFallback (links : List (String × String)) : List Job :=
  links.foldl linkStep []

/-- Embeds `extract_jobs_from_html`: structural pass, then the link-based fallback
when it found nothing and links were collected, then the pattern-based
fallback when the result is still empty.  The document is represented by
its tokenizer event stream together with its raw text. -/
def extract_jobs_from_html (events : List HtmlEvent) (html : String) : List Job :=
  let parser := runParser events
  let jobs := parser.jobs
  let jobs := if jobs = [] ∧ parser.allLinks ≠ [] then linkFallback parser.allLinks
              else jobs
  if jobs = [] then regex_fallback html else jobs

/-!  Observers and concrete fixtures used by the theorems below. -/

/-- Association-list lookup by key (the dict-read the Python code performs
with `seen[key]`). -/
def lookupA {κ α : Type} [DecidableEq κ] (seen : List (κ × α)) (k : κ) :
    Option α :=
  (seen.find? (fun p => p.1 = k)).map Prod.snd

/-- The record invariant of §3: non-empty title or non-empty url. -/
def goodJob (j : Job) : Prop := getS j.title ≠ "" ∨ getS j.url ≠ ""

/-- Snapshot with the later timestamp of February 2023. -/
def snapX : Snap := { timestamp := "20230215000000" }

/-- Snapshot with the earlier timestamp of February 2023. -/
def snapY : Snap := { timestamp := "20230201000000" }

/-- Snapshot in January 2023. -/
def snapZ : Snap := { timestamp := "20230110000000" }

/-- Dedup example record, later snapshot date. -/
def exJob1 : Job :=
  { title := some "Coach ", team := some "Chicago Sky",
    snapshot_date := some "2024-01-10", wayback_url := some "w1" }

/-- Dedup example record, earlier snapshot date, same key as `exJob1`. -/
def exJob2 : Job :=
  { title := some "coach", team := some "chicago sky",
    snapshot_date := some "2023-11-02", wayback_url := some "w2" }

/-- Modelled from the spec: the §3 deduplication key as the spec words
it — the lower-cased, trimmed `(title, team)` pair, with BOTH components
trimmed (the code's `dedupKey` strips only the title). -/
def trimmedKey (job : Job) : String × String :=
  (pyStrip (lowerStr (getS job.title)), pyStrip (lowerStr (classify_team job)))

/-- Trimmed-key fixture: explicit team without padding. -/
def padTeamA : Job :=
  { title := some "a", team := some "Chicago Sky",
    snapshot_date := some "2024-01-10" }

/-- Trimmed-key fixture: same title, team padded with a leading space, and
an earlier snapshot date than `padTeamA`. -/
def padTeamB : Job :=
  { title := some "a", team := some " Chicago Sky",
    snapshot_date := some "2023-11-02" }

/-- Tie-break fixture: same key and same snapshot date as `tieB` but a
different payload. -/
def tieA : Job :=
  { title := some "Analyst", team := some "Chicago Sky",
    snapshot_date := some "2024-01-01", wayback_url := some "w1" }

/-- Tie-break fixture, distinguishable from `tieA` only by `wayback_url`. -/
def tieB : Job :=
  { title := some "Analyst", team := some "Chicago Sky",
    snapshot_date := some "2024-01-01", wayback_url := some "w2" }

/-- Order-invariance fixture: same key as `distB`, earlier date. -/
def distA : Job :=
  { title := some "Analyst", team := some "Chicago Sky",
    snapshot_date := some "2023-05-01", wayback_url := some "w1" }

/-- Order-invariance fixture: same key as `distA`, later date. -/
def distB : Job :=
  { title := some "Analyst", team := some "Chicago Sky",
    snapshot_date := some "2024-01-01", wayback_url := some "w2" }

/-- A record carrying an explicit team although its title and URL mention a
different roster team. -/
def explicitTeamJob : Job :=
  { title := some "Atlanta Dream Coach", team := some "Chicago Sky",
    url := some "/basketball-jobs/atlanta-dream/coach" }

/-- A record whose search text matches no roster entry. -/
def unmatchedJob : Job := { title := some "x" }

/-- Fetch oracle: 429 twice, then success. -/
def oracle429 : Nat → FetchOutcome
  | 0 => .httpError 429
  | 1 => .httpError 429
  | _ => .success "ok"

/-- A doubly wrapped archive URL. -/
def nestedUrl : String :=
  "https://web.archive.org/web/20230601000000id_/https://web.archive.org/web/20240101000000id_/https://example.com/job/42"

/-- Event stream with one recognized job card containing a titled link. -/
def evCard : List HtmlEvent :=
  [.startTag "div" [("class", "job-card")],
   .startTag "a" [("href", "/basketball-jobs/x/y")],
   .text "Coach", .endTag "a", .endTag "div"]

/-- Event stream with no job card but one usable bare link. -/
def evLinks : List HtmlEvent :=
  [.startTag "a" [("href", "/basketball-jobs/x/y")],
   .text "Ticket Manager", .endTag "a"]

/-- The record the structural pass extracts from `evCard`. -/
def cardJob : Job :=
  { title := some "Coach", url := some "/basketball-jobs/x/y" }

/-- A document whose only job anchor carries 3-character inner text. -/
def shortAnchorHtml : String :=
  "<a href=\"/basketball-jobs/x/y\">abc</a>"

/-- A document with one job anchor whose inner text is 4 characters. -/
def longAnchorHtml : String :=
  "<a href=\"/basketball-jobs/x/y\">abcd</a>"

/-!  Order lemmas for the embedded Python string comparison. -/

theorem lexLt_irrefl (l : List Char) : lexLt l l = false := by
  induction l with
  | nil => rfl
  | cons c cs ih => simp [lexLt, ih]

theorem lexLt_trans {a b c : List Char} (h1 : lexLt a b = true)
    (h2 : lexLt b c = true) : lexLt a c = true := by
  induction a generalizing b c with
  | nil =>
      cases b with
      | nil => simpa [lexLt] using h1
      | cons y ys =>
          cases c with
          | nil => simpa [lexLt] using h2
          | cons z zs => simp [lexLt]
  | cons x xs ih =>
      cases b with
      | nil => simp [lexLt] at h1
      | cons y ys =>
          cases c with
          | nil => simp [lexLt] at h2
          | cons z zs =>
              simp only [lexLt] at h1 h2 ⊢
              by_cases hxy : x.toNat < y.toNat <;>
                by_cases hyz : y.toNat < z.toNat <;>
                by_cases hyx : y.toNat < x.toNat <;>
                by_cases hzy : z.toNat < y.toNat <;>
                simp [hxy, hyz, hyx, hzy] at h1 h2 ⊢ <;>
                first
                  | omega
                  | (have hxz : x.toNat = z.toNat := by omega
                     simp [hxz]
                     exact ih h1 h2)

theorem lexLt_conn {a b : List Char} (h1 : lexLt a b = false)
    (h2 : lexLt b a = false) : a = b := by
  induction a generalizing b with
  | nil =>
      cases b with
      | nil => rfl
      | cons y ys => simp [lexLt] at h1
  | cons x xs ih =>
      cases b with
      | nil => simp [lexLt] at h2
      | cons y ys =>
          simp only [lexLt] at h1 h2
          by_cases hxy : x.toNat < y.toNat
          · simp [hxy] at h1
          · by_cases hyx : y.toNat < x.toNat
            · simp [hxy, hyx] at h2
            · simp [hxy, hyx] at h1 h2
              have hc : x = y := by
                apply Char.ext; apply UInt32.ext
                have e1 : x.toNat = x.val.toNat := rfl
                have e2 : y.toNat = y.val.toNat := rfl
                omega
              rw [hc, ih h1 h2]

theorem strLt_irrefl (s : String) : strLt s s = false := lexLt_irrefl _

theorem strLt_trans {a b c : String} (h1 : strLt a b = true)
    (h2 : strLt b c = true) : strLt a c = true := lexLt_trans h1 h2

theorem strLt_conn {a b : String} (h1 : strLt a b = false)
    (h2 : strLt b a = false) : a = b := by
  have h := lexLt_conn h1 h2
  cases a; cases b
  exact congrArg String.mk h

theorem strLt_notLt_trans {a b c : String} (h1 : strLt a b = false)
    (h2 : strLt b c = false) : strLt a c = false := by
  by_cases h : strLt a c = true
  · by_cases hba : strLt b a = true
    · have := strLt_trans hba h
      simp [this] at h2
    · have hab : a = b := strLt_conn h1 (by simpa using hba)
      rw [hab] at h
      simp [h] at h2
  · simpa using h

theorem strLt_asymm {a b : String} (h : strLt a b = true) :
    strLt b a = false := by
  by_cases hba : strLt b a = true
  · have := strLt_trans h hba
    simp [strLt_irrefl] at this
  · simpa using hba

/-!  Lemmas about `firstMin`, the spec-side survivor of one dedup group. -/

theorem foldl_pickEarlier_mem (l : List Job) (cur : Job) :
    l.foldl pickEarlier cur = cur ∨ l.foldl pickEarlier cur ∈ l := by
  induction l generalizing cur with
  | nil => left; rfl
  | cons b t ih =>
      simp only [List.foldl_cons]
      rcases ih (pickEarlier cur b) with h | h
      · rw [h]
        unfold pickEarlier
        split
        · right; exact List.mem_cons_self _ _
        · left; rfl
      · right; exact List.mem_cons_of_mem _ h

theorem foldl_pickEarlier_notLt (l : List Job) (cur : Job) :
    strLt (effDate cur) (effDate (l.foldl pickEarlier cur)) = false ∧
    ∀ b ∈ l, strLt (effDate b) (effDate (l.foldl pickEarlier cur)) = false := by
  induction l generalizing cur with
  | nil => exact ⟨strLt_irrefl _, by simp⟩
  | cons b t ih =>
      simp only [List.foldl_cons]
      obtain ⟨hcur, hrest⟩ := ih (pickEarlier cur b)
      have hpc : strLt (effDate cur) (effDate (pickEarlier cur b)) = false := by
        unfold pickEarlier
        split
        · next hlt => exact strLt_asymm hlt
        · exact strLt_irrefl _
      have hpb : strLt (effDate b) (effDate (pickEarlier cur b)) = false := by
        unfold pickEarlier
        split
        · exact strLt_irrefl _
        · next hlt => simpa using hlt
      refine ⟨strLt_notLt_trans hpc hcur, ?_⟩
      intro x hx
      rcases List.mem_cons.mp hx with rfl | hx
      · exact strLt_notLt_trans hpb hcur
      · exact hrest x hx

theorem firstMin_mem {l : List Job} {j : Job} (h : firstMin l = some j) :
    j ∈ l := by
  cases l with
  | nil => simp [firstMin] at h
  | cons a t =>
      simp only [firstMin, Option.some.injEq] at h
      rcases foldl_pickEarlier_mem t a with h' | h'
      · rw [← h, h']; exact List.mem_cons_self _ _
      · rw [← h]; exact List.mem_cons_of_mem _ h'

theorem firstMin_notLt {l : List Job} {j : Job} (h : firstMin l = some j) :
    ∀ b ∈ l, strLt (effDate b) (effDate j) = false := by
  cases l with
  | nil => simp [firstMin] at h
  | cons a t =>
      simp only [firstMin, Option.some.injEq] at h
      intro b hb
      obtain ⟨hcur, hrest⟩ := foldl_pickEarlier_notLt t a
      rcases List.mem_cons.mp hb with rfl | hb
      · rw [← h]; exact hcur
      · rw [← h]; exact hrest b hb

theorem firstMin_eq_none {l : List Job} (h : firstMin l = none) : l = [] := by
  cases l with
  | nil => rfl
  | cons a t => simp [firstMin] at h

theorem firstMin_concat (l : List Job) (j : Job) :
    firstMin (l ++ [j]) =
      some (match firstMin l with
            | none => j
            | some c => pickEarlier c j) := by
  cases l with
  | nil => simp [firstMin]
  | cons a t => simp [firstMin, List.foldl_append]

theorem firstMin_perm {l l' : List Job} (hp : l.Perm l')
    (hd : ∀ a ∈ l, ∀ b ∈ l, effDate a = effDate b → a = b) :
    firstMin l = firstMin l' := by
  cases hl : firstMin l with
  | none =>
      have : l = [] := firstMin_eq_none hl
      subst this
      have : l' = [] := hp.symm.eq_nil
      subst this
      rfl
  | some j =>
      cases hl' : firstMin l' with
      | none =>
          have : l' = [] := firstMin_eq_none hl'
          subst this
          have : l = [] := hp.eq_nil
          subst this
          simp [firstMin] at hl
      | some j' =>
          have hj : j ∈ l := firstMin_mem hl
          have hj' : j' ∈ l := hp.symm.subset (firstMin_mem hl')
          have h1 : strLt (effDate j') (effDate j) = false :=
            firstMin_notLt hl j' hj'
          have h2 : strLt (effDate j) (effDate j') = false :=
            firstMin_notLt hl' j (hp.subset hj)
          have : effDate j' = effDate j := strLt_conn h1 h2
          rw [hd j hj j' hj' this.symm]

/-!  Association-list lemmas for the dict builds. -/

theorem find?_concat {α : Type} (p : α → Bool) (l : List α) (x : α) :
    (l ++ [x]).find? p =
      match l.find? p with
      | some y => some y
      | none => if p x then some x else none := by
  induction l with
  | nil => cases h : p x <;> simp [List.find?, h]
  | cons a t ih =>
      by_cases h : p a
      · simp [List.find?, h]
      · simp only [List.cons_append, List.find?_cons_of_neg _ (by simpa using h)]
        rw [ih]

theorem find?_of_nodupKeys {κ α : Type} [DecidableEq κ]
    {seen : List (κ × α)} {p : κ × α}
    (hnd : seen.Pairwise (fun a b => a.1 ≠ b.1)) (hp : p ∈ seen) :
    seen.find? (fun q => q.1 = p.1) = some p := by
  induction seen with
  | nil => cases hp
  | cons q t ih =>
      rcases List.mem_cons.mp hp with rfl | hp
      · simp [List.find?]
      · have hq : q.1 ≠ p.1 := (List.pairwise_cons.mp hnd).1 p hp
        rw [List.find?_cons_of_neg _ (by simpa using hq)]
        exact ih (List.pairwise_cons.mp hnd).2 hp

/-!  The `seen` dict of `deduplicate_jobs`: key discipline and the
characterization of the stored record per key. -/

theorem dedupAcc_concat (l : List Job) (j : Job) :
    dedupAcc (l ++ [j]) = dedupStep (dedupAcc l) j := by
  simp [dedupAcc, List.foldl_append]

theorem mem_dedupStep {seen : List ((String × String) × Job)} {j : Job}
    {p : (String × String) × Job} (hp : p ∈ dedupStep seen j) :
    p ∈ seen ∨ p = (dedupKey j, j) := by
  unfold dedupStep at hp
  split at hp
  · rcases List.mem_append.mp hp with h | h
    · exact Or.inl h
    · right; simpa using h
  · split at hp
    · rcases List.mem_map.mp hp with ⟨q, hq, hfq⟩
      by_cases hk : q.1 = dedupKey j
      · right; rw [← hfq]; simp [hk]
      · left; rw [← hfq]; simpa [hk] using hq
    · exact Or.inl hp

theorem dedupAcc_keysGood (l : List Job) :
    ∀ p ∈ dedupAcc l, p.1 = dedupKey p.2 := by
  induction l using List.reverseRecOn with
  | nil => intro p hp; simp [dedupAcc] at hp
  | append_singleton l j ih =>
      intro p hp
      rw [dedupAcc_concat] at hp
      rcases mem_dedupStep hp with h | h
      · exact ih p h
      · rw [h]

theorem updateFst (j : Job) (q : (String × String) × Job) :
    ((if q.1 = dedupKey j then (dedupKey j, j) else q)).1 = q.1 := by
  split
  · next h => exact h.symm
  · rfl

theorem dedupAcc_keysNodup (l : List Job) :
    (dedupAcc l).Pairwise (fun p q => p.1 ≠ q.1) := by
  induction l using List.reverseRecOn with
  | nil => simp [dedupAcc]
  | append_singleton l j ih =>
      rw [dedupAcc_concat]
      unfold dedupStep
      split
      · next hfind =>
          rw [List.pairwise_append]
          refine ⟨ih, by simp, ?_⟩
          intro a ha b hb
          simp only [List.mem_singleton] at hb
          subst hb
          have := List.find?_eq_none.mp hfind a ha
          simpa using this
      · split
        · rw [List.pairwise_map]
          apply ih.imp_of_mem
          intro a b _ _ hab
          rw [updateFst j a, updateFst j b]
          exact hab
        · exact ih

theorem find?_map_update_hit {seen : List ((String × String) × Job)}
    {j : Job} {p : (String × String) × Job}
    (hfind : seen.find? (fun q => q.1 = dedupKey j) = some p) :
    (seen.map (fun q => if q.1 = dedupKey j then (dedupKey j, j) else q)).find?
      (fun q => q.1 = dedupKey j) = some (dedupKey j, j) := by
  induction seen with
  | nil => simp [List.find?] at hfind
  | cons q t ih =>
      by_cases hq : q.1 = dedupKey j
      · simp [List.find?, hq]
      · rw [List.find?_cons_of_neg _ (by simpa using hq)] at hfind
        simp only [List.map_cons, if_neg hq]
        rw [List.find?_cons_of_neg _ (by simpa using hq)]
        exact ih hfind

theorem find?_map_update_miss (seen : List ((String × String) × Job))
    (j : Job) {k : String × String} (hk : k ≠ dedupKey j) :
    (seen.map (fun q => if q.1 = dedupKey j then (dedupKey j, j) else q)).find?
      (fun q => q.1 = k) = seen.find? (fun q => q.1 = k) := by
  induction seen with
  | nil => simp
  | cons q t ih =>
      by_cases hq : q.1 = dedupKey j
      · have h1 : ¬ ((dedupKey j, j).1 = k) := fun h => hk h.symm
        have h2 : ¬ (q.1 = k) := by rw [hq]; exact fun h => hk h.symm
        simp only [List.map_cons, if_pos hq]
        rw [List.find?_cons_of_neg _ (by simpa using h1),
            List.find?_cons_of_neg _ (by simpa using h2)]
        exact ih
      · simp only [List.map_cons, if_neg hq]
        by_cases hqk : q.1 = k
        · simp [List.find?, hqk]
        · rw [List.find?_cons_of_neg _ (by simpa using hqk),
              List.find?_cons_of_neg _ (by simpa using hqk)]
          exact ih

theorem lookupA_dedupStep_same (seen : List ((String × String) × Job)) (j : Job) :
    lookupA (dedupStep seen j) (dedupKey j) =
      some (match lookupA seen (dedupKey j) with
            | none => j
            | some ex => pickEarlier ex j) := by
  unfold dedupStep
  cases hfind : seen.find? (fun p => p.1 = dedupKey j) with
  | none =>
      simp only [lookupA, hfind]
      rw [find?_concat]
      simp [hfind]
  | some p =>
      split
      · next heq => exact absurd heq (by simp)
      · next p' heq =>
          injection heq with heq'
          subst heq'
          by_cases hlt : strLt (effDate j) (effDate p.2) = true
          · rw [if_pos hlt]
            simp [lookupA, find?_map_update_hit hfind, hfind, pickEarlier, hlt]
          · rw [if_neg hlt]
            simp [lookupA, hfind, pickEarlier, hlt]

theorem lookupA_dedupStep_other (seen : List ((String × String) × Job))
    (j : Job) {k : String × String} (hk : k ≠ dedupKey j) :
    lookupA (dedupStep seen j) k = lookupA seen k := by
  unfold dedupStep
  cases hfind : seen.find? (fun p => p.1 = dedupKey j) with
  | none =>
      simp only [lookupA]
      rw [find?_concat]
      cases h : seen.find? (fun p => p.1 = k) with
      | some q => simp [h]
      | none =>
          have hne : ¬ (dedupKey j = k) := fun h' => hk h'.symm
          simp [h, hne]
  | some p =>
      split
      · next heq => exact absurd heq (by simp)
      · next p' heq =>
          injection heq with heq'
          subst heq'
          by_cases hlt : strLt (effDate j) (effDate p.2) = true
          · rw [if_pos hlt]
            simp [lookupA, find?_map_update_miss seen j hk]
          · rw [if_neg hlt]

theorem lookupA_dedupAcc (l : List Job) (k : String × String) :
    lookupA (dedupAcc l) k = firstMin (l.filter (fun j => dedupKey j = k)) := by
  induction l using List.reverseRecOn with
  | nil => simp [dedupAcc, lookupA, firstMin]
  | append_singleton l j ih =>
      rw [dedupAcc_concat, List.filter_append]
      by_cases hk : dedupKey j = k
      · subst hk
        rw [lookupA_dedupStep_same, ih]
        simp only [List.filter, decide_True]
        rw [firstMin_concat]
      · rw [lookupA_dedupStep_other _ _ (fun h => hk h.symm), ih]
        simp [List.filter, hk]

theorem find?_values {acc : List ((String × String) × Job)}
    (hg : ∀ p ∈ acc, p.1 = dedupKey p.2) (k : String × String) :
    (acc.map Prod.snd).find? (fun j => dedupKey j = k) = lookupA acc k := by
  induction acc with
  | nil => simp [lookupA]
  | cons p t ih =>
      have hp : p.1 = dedupKey p.2 := hg p (List.mem_cons_self _ _)
      have ht : ∀ q ∈ t, q.1 = dedupKey q.2 :=
        fun q hq => hg q (List.mem_cons_of_mem _ hq)
      by_cases hk : dedupKey p.2 = k
      · simp [lookupA, List.find?, hk, hp.trans hk]
      · have hk' : ¬ (p.1 = k) := by rw [hp]; exact hk
        simp only [List.map_cons]
        rw [List.find?_cons_of_neg _ (by simpa using hk)]
        simp only [lookupA]
        rw [List.find?_cons_of_neg _ (by simpa using hk')]
        exact ih ht

theorem survivorFor_eq_lookup (l : List Job) (k : String × String) :
    survivorFor l k = lookupA (dedupAcc l) k := by
  unfold survivorFor deduplicate_jobs
  exact find?_values (dedupAcc_keysGood l) k

theorem survivorFor_char (l : List Job) (k : String × String) :
    survivorFor l k = firstMin (l.filter (fun j => dedupKey j = k)) := by
  rw [survivorFor_eq_lookup]
  exact lookupA_dedupAcc l k

theorem mem_dedup_lookup {l : List Job} {j : Job}
    (hj : j ∈ deduplicate_jobs l) :
    survivorFor l (dedupKey j) = some j := by
  rcases List.mem_map.mp hj with ⟨p, hp, hsnd⟩
  have hk : p.1 = dedupKey p.2 := dedupAcc_keysGood l p hp
  rw [survivorFor_eq_lookup]
  unfold lookupA
  subst hsnd
  rw [← hk, find?_of_nodupKeys (dedupAcc_keysNodup l) hp]
  rfl

/-!  Claim theorems for the deduplicator. -/

/-- C2 counterexample: the claim keys records by the lower-cased, TRIMMED
`(title, team)` pair, but the code (`dedupKey`) strips only the title.
Two records whose teams differ only in a leading space share the claim's
trimmed key yet carry distinct code keys, so BOTH survive
`deduplicate_jobs` — refuting the claim's at-most-one-survivor-per-key
conjunct (and, since their dates differ, its minimal-date conjunct). -/
theorem dedup_trimmed_key_counterexample :
    trimmedKey padTeamA = trimmedKey padTeamB ∧
    dedupKey padTeamA ≠ dedupKey padTeamB ∧
    padTeamA ≠ padTeamB ∧
    strLt (effDate padTeamB) (effDate padTeamA) = true ∧
    deduplicate_jobs [padTeamA, padTeamB] = [padTeamA, padTeamB] :=
  ⟨by decide, by decide, by decide, by decide, by decide⟩

/-- C2 (amended): the statement holds for the key the code actually
computes (`dedupKey`: title lower-cased and trimmed, classified team
lower-cased but NOT trimmed).  After `deduplicate_jobs`, (a) at most one
record survives per such key; (b) every survivor comes from the input and
carries a snapshot date that is lexicographically minimal among the input
records sharing its key; (c) for every key, the survivor is exactly the
first input record attaining the minimal date for that key (`firstMin`),
so ties break by first-seen order; and (d) in particular the two example
records with dates 2024-01-10 and 2023-11-02 collapse to the record dated
2023-11-02. -/
theorem deduplicate_jobs_spec :
    (∀ jobs : List Job,
       (deduplicate_jobs jobs).Pairwise (fun a b => dedupKey a ≠ dedupKey b)) ∧
    (∀ jobs : List Job, ∀ j ∈ deduplicate_jobs jobs, j ∈ jobs ∧
       ∀ b ∈ jobs, dedupKey b = dedupKey j →
         strLt (effDate b) (effDate j) = false) ∧
    (∀ jobs : List Job, ∀ k : String × String,
       survivorFor jobs k = firstMin (jobs.filter (fun j => dedupKey j = k))) ∧
    deduplicate_jobs [exJob1, exJob2] = [exJob2] := by
  refine ⟨?_, ?_, survivorFor_char, by decide⟩
  · intro jobs
    unfold deduplicate_jobs
    rw [List.pairwise_map]
    apply (dedupAcc_keysNodup jobs).imp_of_mem
    intro a b ha hb hab
    rw [← dedupAcc_keysGood jobs a ha, ← dedupAcc_keysGood jobs b hb]
    exact hab
  · intro jobs j hj
    have hchar := (survivorFor_char jobs (dedupKey j)).symm.trans
      (mem_dedup_lookup hj)
    constructor
    · have := firstMin_mem hchar
      exact (List.mem_filter.mp this).1
    · intro b hb hbk
      apply firstMin_notLt hchar
      exact List.mem_filter.mpr ⟨hb, by simp [hbk]⟩

/-- C2 witness: the conjuncts of `deduplicate_jobs_spec` instantiated at
the concrete two-record example. -/
theorem deduplicate_jobs_spec_witness :
    ((deduplicate_jobs [exJob1, exJob2]).Pairwise
       (fun a b => dedupKey a ≠ dedupKey b)) ∧
    (exJob2 ∈ [exJob1, exJob2] ∧
       ∀ b ∈ [exJob1, exJob2], dedupKey b = dedupKey exJob2 →
         strLt (effDate b) (effDate exJob2) = false) ∧
    survivorFor [exJob1, exJob2] (dedupKey exJob2) =
      firstMin ([exJob1, exJob2].filter (fun j => dedupKey j = dedupKey exJob2)) := by
  refine ⟨deduplicate_jobs_spec.1 _, ?_, deduplicate_jobs_spec.2.2.1 _ _⟩
  exact deduplicate_jobs_spec.2.1 [exJob1, exJob2] exJob2 (by decide)

/-- C8 counterexample: two distinct records with the same dedup key and the
same snapshot date; which one survives depends on arrival order, so the
claim that order of arrival never affects the kept record is false. -/
theorem dedup_order_counterexample :
    [tieA, tieB].Perm [tieB, tieA] ∧
    dedupKey tieA = dedupKey tieB ∧
    effDate tieA = effDate tieB ∧
    tieA ≠ tieB ∧
    deduplicate_jobs [tieA, tieB] = [tieA] ∧
    deduplicate_jobs [tieB, tieA] = [tieB] :=
  ⟨List.Perm.swap tieB tieA [], by decide, by decide, by decide,
   by decide, by decide⟩

/-- C8 amended: order of arrival does not affect which record survives for
any key, provided no two same-key input records carry the same effective
snapshot date (the code breaks such ties by first arrival). -/
theorem dedup_order_invariance :
    ∀ (l l' : List Job), l.Perm l' →
      (∀ a ∈ l, ∀ b ∈ l, dedupKey a = dedupKey b →
         effDate a = effDate b → a = b) →
      ∀ k : String × String, survivorFor l k = survivorFor l' k := by
  intro l l' hp hd k
  rw [survivorFor_char, survivorFor_char]
  apply firstMin_perm (hp.filter _)
  intro a ha b hb hab
  have ha' := List.mem_filter.mp ha
  have hb' := List.mem_filter.mp hb
  exact hd a ha'.1 b hb'.1
    (by rw [of_decide_eq_true ha'.2, of_decide_eq_true hb'.2]) hab

/-- C8 witness: `dedup_order_invariance` applied to a concrete two-record
list (distinct dates) and its transposition. -/
theorem dedup_order_invariance_witness :
    survivorFor [distA, distB] (dedupKey distA) =
      survivorFor [distB, distA] (dedupKey distA) :=
  dedup_order_invariance [distA, distB] [distB, distA]
    (List.Perm.swap distB distA []) (by decide) (dedupKey distA)

/-!  Lemmas for the monthly reduction: the stable sort and the first-seen
month dict. -/

theorem strLe_refl (a : String) : strLe a a = true := by
  unfold strLe
  simp [strLt_irrefl]

theorem strLe_trans {a b c : String} (h1 : strLe a b = true)
    (h2 : strLe b c = true) : strLe a c = true := by
  unfold strLe at h1 h2 ⊢
  simp only [Bool.not_eq_true'] at h1 h2 ⊢
  exact strLt_notLt_trans h2 h1

theorem strLe_of_not {x y : String} (h : strLe y x = false) :
    strLe x y = true := by
  unfold strLe at h ⊢
  simp only [Bool.not_eq_true']
  simp only [Bool.not_eq_false'] at h
  exact strLt_asymm h

theorem insertByTs_perm (l : List Snap) (x : Snap) :
    (insertByTs l x).Perm (x :: l) := by
  induction l with
  | nil => exact List.Perm.refl _
  | cons y ys ih =>
      unfold insertByTs
      split
      · exact (ih.cons y).trans (List.Perm.swap x y ys)
      · exact List.Perm.refl _

theorem sortByTs_foldl_perm (l : List Snap) :
    ∀ acc : List Snap, (l.foldl insertByTs acc).Perm (acc ++ l) := by
  induction l with
  | nil => intro acc; simp
  | cons x t ih =>
      intro acc
      simp only [List.foldl_cons]
      refine (ih (insertByTs acc x)).trans ?_
      refine (((insertByTs_perm acc x).append_right t)).trans ?_
      exact List.perm_middle.symm

theorem sortByTs_perm (l : List Snap) : (sortByTs l).Perm l := by
  simpa using sortByTs_foldl_perm l []

theorem insertByTs_sorted {l : List Snap} (x : Snap)
    (hl : l.Pairwise (fun a b => strLe a.timestamp b.timestamp = true)) :
    (insertByTs l x).Pairwise (fun a b => strLe a.timestamp b.timestamp = true) := by
  induction l with
  | nil => simp [insertByTs]
  | cons y ys ih =>
      rw [List.pairwise_cons] at hl
      unfold insertByTs
      split
      · next hle =>
          rw [List.pairwise_cons]
          refine ⟨?_, ih hl.2⟩
          intro z hz
          rcases List.mem_cons.mp ((insertByTs_perm ys x).mem_iff.mp hz) with
            rfl | h
          · exact hle
          · exact hl.1 z h
      · next hle =>
          have hxy : strLe x.timestamp y.timestamp = true :=
            strLe_of_not (by simpa using hle)
          rw [List.pairwise_cons]
          refine ⟨?_, List.pairwise_cons.mpr hl⟩
          intro z hz
          rcases List.mem_cons.mp hz with rfl | h
          · exact hxy
          · exact strLe_trans hxy (hl.1 z h)

theorem sortByTs_foldl_sorted (l : List Snap) :
    ∀ acc : List Snap,
      acc.Pairwise (fun a b => strLe a.timestamp b.timestamp = true) →
      (l.foldl insertByTs acc).Pairwise
        (fun a b => strLe a.timestamp b.timestamp = true) := by
  induction l with
  | nil => intro acc h; simpa using h
  | cons x t ih =>
      intro acc h
      simp only [List.foldl_cons]
      exact ih _ (insertByTs_sorted x h)

theorem sortByTs_sorted (l : List Snap) :
    (sortByTs l).Pairwise (fun a b => strLe a.timestamp b.timestamp = true) :=
  sortByTs_foldl_sorted l [] (by simp)

theorem monthAcc_concat (l : List Snap) (s : Snap) :
    (l ++ [s]).foldl monthStep [] = monthStep (l.foldl monthStep []) s := by
  simp [List.foldl_append]

theorem mem_monthStep {acc : List (String × Snap)} {s : Snap}
    {p : String × Snap} (hp : p ∈ monthStep acc s) :
    p ∈ acc ∨ p = (monthKey s, s) := by
  unfold monthStep at hp
  split at hp
  · exact Or.inl hp
  · rcases List.mem_append.mp hp with h | h
    · exact Or.inl h
    · right; simpa using h

theorem monthStep_pairwise {acc : List (String × Snap)} {s : Snap}
    (h : acc.Pairwise (fun p q => p.1 ≠ q.1)) :
    (monthStep acc s).Pairwise (fun p q => p.1 ≠ q.1) := by
  unfold monthStep
  split
  · exact h
  · next hfind =>
      have hnone : acc.find? (fun p => p.1 = monthKey s) = none :=
        Option.not_isSome_iff_eq_none.mp hfind
      rw [List.pairwise_append]
      refine ⟨h, by simp, ?_⟩
      intro a ha b hb
      simp only [List.mem_singleton] at hb
      subst hb
      have := List.find?_eq_none.mp hnone a ha
      simpa using this

theorem lookupA_monthStep_same (acc : List (String × Snap)) (s : Snap) :
    lookupA (monthStep acc s) (monthKey s) =
      some ((lookupA acc (monthKey s)).getD s) := by
  unfold monthStep
  cases hfind : acc.find? (fun p => p.1 = monthKey s) with
  | none =>
      rw [if_neg (by simp)]
      unfold lookupA
      rw [find?_concat, hfind]
      simp
  | some p =>
      rw [if_pos (by simp)]
      unfold lookupA
      rw [hfind]
      rfl

theorem lookupA_monthStep_other (acc : List (String × Snap)) (s : Snap)
    {k : String} (hk : k ≠ monthKey s) :
    lookupA (monthStep acc s) k = lookupA acc k := by
  unfold monthStep
  split
  · rfl
  · unfold lookupA
    rw [find?_concat]
    cases h : acc.find? (fun p => p.1 = k) with
    | some q => rfl
    | none =>
        have : ¬ (monthKey s = k) := fun h' => hk h'.symm
        simp [this]

theorem monthAcc_keysGood (l : List Snap) :
    ∀ p ∈ l.foldl monthStep [], p.1 = monthKey p.2 := by
  induction l using List.reverseRecOn with
  | nil => intro p hp; simp at hp
  | append_singleton l s ih =>
      intro p hp
      rw [monthAcc_concat] at hp
      rcases mem_monthStep hp with h | h
      · exact ih p h
      · rw [h]

theorem monthAcc_keysNodup (l : List Snap) :
    (l.foldl monthStep []).Pairwise (fun p q => p.1 ≠ q.1) := by
  induction l using List.reverseRecOn with
  | nil => simp
  | append_singleton l s ih =>
      rw [monthAcc_concat]
      exact monthStep_pairwise ih

theorem lookupA_monthAcc (l : List Snap) (k : String) :
    lookupA (l.foldl monthStep []) k =
      (l.filter (fun s => monthKey s = k)).head? := by
  induction l using List.reverseRecOn with
  | nil => simp [lookupA]
  | append_singleton l s ih =>
      rw [monthAcc_concat, List.filter_append]
      by_cases hk : monthKey s = k
      · subst hk
        rw [lookupA_monthStep_same, ih, List.head?_append]
        cases hfl : (l.filter (fun s' => monthKey s' = monthKey s)).head? with
        | none => simp [List.filter]
        | some t => simp
      · have hfil : [s].filter (fun s' => monthKey s' = k) = [] := by
          simp [hk]
        rw [hfil, List.append_nil,
            lookupA_monthStep_other _ _ (fun h => hk h.symm), ih]

/-- C1 counterexample: `dedupe_snapshots_by_month` keeps the first-seen
snapshot of each month, not the minimum-timestamped one.  With the later
February snapshot first in the input, the retained descriptor for key
`202302` has a strictly larger timestamp than another input descriptor
sharing the key. -/
theorem dedupe_month_not_min_counterexample :
    monthKey snapY = monthKey snapX ∧
    strLt snapY.timestamp snapX.timestamp = true ∧
    dedupe_snapshots_by_month [snapX, snapY] = [snapX] :=
  ⟨by decide, by decide, by decide⟩

/-- C1 (amended): the monthly reduction keeps at most one descriptor per
distinct year-month key; for each key it retains the first descriptor in
input order with that key (which is the earliest-timestamped one whenever
the input is itself sorted ascending by timestamp, as the CDX index
returns it); every input month is represented; and the returned list is
sorted by timestamp ascending. -/
theorem dedupe_month_spec :
    (∀ snaps : List Snap,
       (dedupe_snapshots_by_month snaps).Pairwise
         (fun a b => monthKey a ≠ monthKey b)) ∧
    (∀ snaps : List Snap, ∀ s ∈ dedupe_snapshots_by_month snaps,
       some s = (snaps.filter (fun b => monthKey b = monthKey s)).head?) ∧
    (∀ snaps : List Snap,
       (dedupe_snapshots_by_month snaps).Pairwise
         (fun a b => strLe a.timestamp b.timestamp = true)) ∧
    (∀ snaps : List Snap, ∀ s ∈ snaps,
       ∃ t ∈ dedupe_snapshots_by_month snaps, monthKey t = monthKey s) ∧
    (∀ snaps : List Snap,
       snaps.Pairwise (fun a b => strLe a.timestamp b.timestamp = true) →
       ∀ s ∈ dedupe_snapshots_by_month snaps, ∀ b ∈ snaps,
         monthKey b = monthKey s → strLe s.timestamp b.timestamp = true) := by
  have hperm : ∀ snaps : List Snap,
      (dedupe_snapshots_by_month snaps).Perm
        ((snaps.foldl monthStep []).map Prod.snd) := fun _ =>
    sortByTs_perm _
  have hmem_char : ∀ (snaps : List Snap) (s : Snap),
      s ∈ dedupe_snapshots_by_month snaps →
      some s = (snaps.filter (fun b => monthKey b = monthKey s)).head? := by
    intro snaps s hs
    have hs' : s ∈ (snaps.foldl monthStep []).map Prod.snd :=
      (hperm snaps).mem_iff.mp hs
    rcases List.mem_map.mp hs' with ⟨p, hp, hsnd⟩
    have hkey : p.1 = monthKey p.2 := monthAcc_keysGood snaps p hp
    have hfind := find?_of_nodupKeys (monthAcc_keysNodup snaps) hp
    have hlook : lookupA (snaps.foldl monthStep []) (monthKey s) = some s := by
      unfold lookupA
      rw [← hsnd, ← hkey, hfind]
      rfl
    rw [← lookupA_monthAcc, hlook]
  refine ⟨?_, fun snaps s hs => hmem_char snaps s hs, ?_, ?_, ?_⟩
  · intro snaps
    have hpm : (((snaps.foldl monthStep []).map Prod.snd)).Pairwise
        (fun a b => monthKey a ≠ monthKey b) := by
      rw [List.pairwise_map]
      apply (monthAcc_keysNodup snaps).imp_of_mem
      intro a b ha hb hab
      rw [← monthAcc_keysGood snaps a ha, ← monthAcc_keysGood snaps b hb]
      exact hab
    exact ((hperm snaps).pairwise_iff (fun h e => h e.symm)).mpr hpm
  · intro snaps
    exact sortByTs_sorted _
  · intro snaps s hs
    have hsf : s ∈ snaps.filter (fun b => monthKey b = monthKey s) :=
      List.mem_filter.mpr ⟨hs, by simp⟩
    cases hfl : snaps.filter (fun b => monthKey b = monthKey s) with
    | nil => rw [hfl] at hsf; cases hsf
    | cons t rest =>
        refine ⟨t, ?_, ?_⟩
        · have hl : lookupA (snaps.foldl monthStep []) (monthKey s) = some t := by
            rw [lookupA_monthAcc, hfl]
            rfl
          unfold lookupA at hl
          cases hf : (snaps.foldl monthStep []).find?
              (fun p => p.1 = monthKey s) with
          | none => rw [hf] at hl; cases hl
          | some p =>
              rw [hf] at hl
              have hps : p.2 = t := by
                simpa using hl
              have hpmem : p ∈ snaps.foldl monthStep [] :=
                List.mem_of_find?_eq_some hf
              have ht : t ∈ (snaps.foldl monthStep []).map Prod.snd := by
                rw [← hps]
                exact List.mem_map.mpr ⟨p, hpmem, rfl⟩
              exact (hperm snaps).mem_iff.mpr ht
        · have ht : t ∈ snaps.filter (fun b => monthKey b = monthKey s) := by
            rw [hfl]
            exact List.mem_cons_self t rest
          have := (List.mem_filter.mp ht).2
          simpa using this
  · intro snaps hsort s hs b hb hkb
    have hchar := hmem_char snaps s hs
    have hfsort := hsort.filter (fun x => decide (monthKey x = monthKey s))
    have hbf : b ∈ snaps.filter (fun x => monthKey x = monthKey s) :=
      List.mem_filter.mpr ⟨hb, by simp [hkb]⟩
    cases hfl : snaps.filter (fun x => monthKey x = monthKey s) with
    | nil => rw [hfl] at hbf; cases hbf
    | cons t rest =>
        rw [hfl] at hchar hbf
        rw [hfl] at hfsort
        have hst : s = t := by
          simpa using hchar
        subst hst
        rcases List.mem_cons.mp hbf with rfl | hbr
        · exact strLe_refl _
        · exact (List.pairwise_cons.mp hfsort).1 b hbr

/-- C1 witness: the hypothesis-bearing conjuncts of `dedupe_month_spec`
instantiated at concrete snapshot lists. -/
theorem dedupe_month_spec_witness :
    (some snapX =
      ([snapX, snapY].filter (fun b => monthKey b = monthKey snapX)).head?) ∧
    (∃ t ∈ dedupe_snapshots_by_month [snapX, snapY],
       monthKey t = monthKey snapY) ∧
    strLe snapY.timestamp snapX.timestamp = true := by
  refine ⟨dedupe_month_spec.2.1 [snapX, snapY] snapX (by decide),
          dedupe_month_spec.2.2.2.1 [snapX, snapY] snapY (by decide), ?_⟩
  exact dedupe_month_spec.2.2.2.2 [snapZ, snapY, snapX] (by decide)
    snapY (by decide) snapX (by decide) (by decide)

/-!  Claim theorems for the team classifier, the fetcher and the URL
unwrapper. -/

/-- C4: a record with a present, non-empty team field keeps that value
under `classify_team`, whatever its title or URL text contains. -/
theorem classify_team_explicit :
    ∀ (job : Job) (t : String), job.team = some t → t ≠ "" →
      classify_team job = t := by
  intro job t ht hne
  unfold classify_team
  rw [if_pos (by simp [getS, ht, hne])]
  simp [getS, ht]

/-- C4 witness: `classify_team_explicit` applied to a record whose title
and URL mention Atlanta Dream but whose explicit team is Chicago Sky. -/
theorem classify_team_explicit_witness :
    explicitTeamJob.team = some "Chicago Sky" ∧
    teamMatches (classifyText explicitTeamJob) "Atlanta Dream" = true ∧
    classify_team explicitTeamJob = "Chicago Sky" :=
  ⟨rfl, by decide,
   classify_team_explicit explicitTeamJob "Chicago Sky" rfl (by decide)⟩

/-- C5 counterexample: on a record with no team and no roster match,
`classify_team` returns `"Unknown / WNBA General"`, not the sentinel
`"unclassified"` the claim names. -/
theorem classify_team_sentinel_counterexample :
    getS unmatchedJob.team = "" ∧
    (WNBA_TEAMS.all fun team => ! teamMatches (classifyText unmatchedJob) team) = true ∧
    classify_team unmatchedJob ≠ "unclassified" :=
  ⟨rfl, by decide, by decide⟩

/-- C5 (amended): `classify_team` is total, and on every record whose team
field is empty or absent and whose concatenated lower-cased search text
matches no roster entry (neither lower-cased nor slug form) it returns the
fixed sentinel `"Unknown / WNBA General"`. -/
theorem classify_team_sentinel_spec :
    ∀ job : Job, getS job.team = "" →
      (∀ team ∈ WNBA_TEAMS, teamMatches (classifyText job) team = false) →
      classify_team job = "Unknown / WNBA General" := by
  intro job hteam hmatch
  unfold classify_team
  rw [if_neg (by simp [hteam])]
  have hfind : WNBA_TEAMS.find? (teamMatches (classifyText job)) = none :=
    List.find?_eq_none.mpr (fun t ht => by simp [hmatch t ht])
  rw [hfind]

/-- C5 witness: `classify_team_sentinel_spec` applied to the concrete
unmatched record. -/
theorem classify_team_sentinel_witness :
    classify_team unmatchedJob = "Unknown / WNBA General" :=
  classify_team_sentinel_spec unmatchedJob rfl (by decide)

/-- C6: when the first two attempts return HTTP 429 and the third
succeeds, `fetch_url` returns the successful body, waits exactly
`2^(0+2) = 4` then `2^(1+2) = 8` seconds before the retries, and issues
exactly three requests (none after the success). -/
theorem fetch_retry_429 :
    ∀ (oracle : Nat → FetchOutcome) (body : String),
      oracle 0 = .httpError 429 → oracle 1 = .httpError 429 →
      oracle 2 = .success body →
      fetch_url oracle 3 = (some body, [4, 8], 3) := by
  intro oracle body h0 h1 h2
  unfold fetch_url
  simp [fetchGo, h0, h1, h2]

/-- C6 witness: `fetch_retry_429` at the concrete oracle `oracle429`. -/
theorem fetch_retry_429_witness :
    fetch_url oracle429 3 = (some "ok", [4, 8], 3) :=
  fetch_retry_429 oracle429 "ok" rfl rfl rfl

/-- C7 counterexample: `clean_wayback_url` is not idempotent.  On a doubly
wrapped URL the greedy tail keeps the inner wrapper in the first result,
and a second application unwraps again. -/
theorem clean_wayback_url_not_idempotent :
    clean_wayback_url (clean_wayback_url nestedUrl) ≠
      clean_wayback_url nestedUrl := by decide

/-- C7 (amended): every input in which the wrapper pattern does not occur
is returned unchanged; consequently `clean_wayback_url` is idempotent at
every input whose first result contains no wrapper occurrence (but not in
general, as a payload may itself be a wrapped URL); and the example URL
unwraps to exactly `https://example.com/job/42`. -/
theorem clean_wayback_url_spec :
    (∀ url : String, searchWrap url.toList = none → clean_wayback_url url = url) ∧
    (∀ url : String, searchWrap (clean_wayback_url url).toList = none →
       clean_wayback_url (clean_wayback_url url) = clean_wayback_url url) ∧
    clean_wayback_url
        "https://web.archive.org/web/20230601000000id_/https://example.com/job/42" =
      "https://example.com/job/42" := by
  have hpass : ∀ url : String, searchWrap url.toList = none →
      clean_wayback_url url = url := by
    intro url h
    unfold clean_wayback_url
    rw [h]
  exact ⟨hpass, fun url h => hpass _ h, by decide⟩

/-- C7 witness: the conditional conjuncts of `clean_wayback_url_spec`
applied at concrete URLs. -/
theorem clean_wayback_url_spec_witness :
    clean_wayback_url "https://example.com/nothing" = "https://example.com/nothing" ∧
    clean_wayback_url (clean_wayback_url "https://example.com/nothing") =
      clean_wayback_url "https://example.com/nothing" :=
  ⟨clean_wayback_url_spec.1 "https://example.com/nothing" (by decide),
   clean_wayback_url_spec.2.1 "https://example.com/nothing" (by decide)⟩

/-!  Claim theorems for the extraction tiers. -/

theorem linkFallback_nil : linkFallback [] = [] := rfl

/-- C3: on any document, the pattern-based (regex) fallback result is the
output of `extract_jobs_from_html` exactly when both the structural pass
and the link-based fallback produce nothing; when either earlier tier is
non-empty, its output is returned and the regex fallback is not used. -/
theorem fallback_ordering_spec :
    ∀ (events : List HtmlEvent) (html : String),
      ((runParser events).jobs = [] →
        linkFallback (runParser events).allLinks = [] →
        extract_jobs_from_html events html = regex_fallback html) ∧
      ((runParser events).jobs ≠ [] →
        extract_jobs_from_html events html = (runParser events).jobs) ∧
      ((runParser events).jobs = [] →
        linkFallback (runParser events).allLinks ≠ [] →
        extract_jobs_from_html events html = linkFallback (runParser events).allLinks) := by
  intro events html
  refine ⟨?_, ?_, ?_⟩
  · intro hj hl
    by_cases ha : (runParser events).allLinks = [] <;>
      simp [extract_jobs_from_html, hj, hl, ha]
  · intro hj
    simp [extract_jobs_from_html, hj]
  · intro hj hl
    have ha : (runParser events).allLinks ≠ [] := by
      intro h
      apply hl
      rw [h]
      rfl
    simp [extract_jobs_from_html, hj, hl, ha]

/-- C3 witness: the three conjuncts of `fallback_ordering_spec` at
concrete documents exercising each tier. -/
theorem fallback_ordering_witness :
    extract_jobs_from_html [] longAnchorHtml = regex_fallback longAnchorHtml ∧
    extract_jobs_from_html evCard "" = (runParser evCard).jobs ∧
    extract_jobs_from_html evLinks "" = linkFallback (runParser evLinks).allLinks :=
  ⟨(fallback_ordering_spec [] longAnchorHtml).1 (by decide) (by decide),
   (fallback_ordering_spec evCard "").2.1 (by decide),
   (fallback_ordering_spec evLinks "").2.2 (by decide) (by decide)⟩

theorem starttag_jobs (st : PState) (tag : String)
    (attrs : List (String × String)) :
    (handle_starttag st tag attrs).jobs = st.jobs := by
  unfold handle_starttag
  dsimp only
  split_ifs <;> rfl

theorem data_jobs (st : PState) (s : String) :
    (handle_data st s).jobs = st.jobs := by
  unfold handle_data
  split_ifs <;> rfl

theorem endtagCapture_jobs (st : PState) (tag : String) :
    (endtagCapture st tag).jobs = st.jobs := by
  unfold endtagCapture
  dsimp only
  split_ifs <;> rfl

theorem endtagPop_jobs (st : PState) : (endtagPop st).jobs = st.jobs := by
  unfold endtagPop
  dsimp only
  split_ifs <;> rfl

theorem endtagEmit_good {st : PState} (h : ∀ j ∈ st.jobs, goodJob j) :
    ∀ j ∈ (endtagEmit st).jobs, goodJob j := by
  unfold endtagEmit
  dsimp only
  split_ifs with h1 h2
  · intro j hj
    simp only [List.mem_append, List.mem_singleton] at hj
    rcases hj with hj | rfl
    · exact h j hj
    · exact h2
  · exact h
  · exact h

theorem handle_endtag_good {st : PState} (h : ∀ j ∈ st.jobs, goodJob j)
    (tag : String) : ∀ j ∈ (handle_endtag st tag).jobs, goodJob j := by
  unfold handle_endtag
  intro j hj
  rw [endtagPop_jobs] at hj
  have h' : ∀ j ∈ (endtagCapture st tag).jobs, goodJob j := by
    rw [endtagCapture_jobs]
    exact h
  exact endtagEmit_good h' j hj

theorem runParser_jobs_good (events : List HtmlEvent) :
    ∀ j ∈ (runParser events).jobs, goodJob j := by
  suffices h : ∀ (evs : List HtmlEvent) (st : PState),
      (∀ j ∈ st.jobs, goodJob j) →
      ∀ j ∈ (evs.foldl stepEvent st).jobs, goodJob j by
    exact h events {} (by simp)
  intro evs
  induction evs with
  | nil => intro st h; simpa using h
  | cons e t ih =>
      intro st h
      simp only [List.foldl_cons]
      apply ih
      cases e with
      | startTag tag attrs =>
          intro j hj
          rw [stepEvent, starttag_jobs] at hj
          exact h j hj
      | endTag tag => exact handle_endtag_good h tag
      | text s =>
          intro j hj
          rw [stepEvent, data_jobs] at hj
          exact h j hj

theorem mkFallbackJob_title (href text : String) :
    (mkFallbackJob href text).title = some text := by
  unfold mkFallbackJob
  cases team_from_url href <;> rfl

theorem linkFallback_good (links : List (String × String)) :
    ∀ j ∈ linkFallback links, goodJob j := by
  suffices h : ∀ (ls : List (String × String)) (acc : List Job),
      (∀ j ∈ acc, goodJob j) → ∀ j ∈ ls.foldl linkStep acc, goodJob j by
    exact h links [] (by simp)
  intro ls
  induction ls with
  | nil => intro acc h; simpa using h
  | cons l t ih =>
      intro acc h
      simp only [List.foldl_cons]
      apply ih
      unfold linkStep
      split_ifs with hc
      · intro j hj
        simp only [List.mem_append, List.mem_singleton] at hj
        rcases hj with hj | rfl
        · exact h j hj
        · left
          rw [mkFallbackJob_title]
          exact hc.1
      · exact h

theorem regexStep_good {acc : List Job} (h : ∀ j ∈ acc, goodJob j)
    (m : List Char × List Char) : ∀ j ∈ regexStep acc m, goodJob j := by
  unfold regexStep
  dsimp only
  split_ifs with hc
  · intro j hj
    simp only [List.mem_append, List.mem_singleton] at hj
    rcases hj with hj | rfl
    · exact h j hj
    · left
      rw [mkFallbackJob_title]
      exact hc.1
  · exact h

theorem regex_fallback_good (html : String) :
    ∀ j ∈ regex_fallback html, goodJob j := by
  suffices h : ∀ (ms : List (List Char × List Char)) (acc : List Job),
      (∀ j ∈ acc, goodJob j) → ∀ j ∈ ms.foldl regexStep acc, goodJob j by
    exact h _ [] (by simp)
  intro ms
  induction ms with
  | nil => intro acc h; simpa using h
  | cons m t ih =>
      intro acc h
      simp only [List.foldl_cons]
      exact ih _ (regexStep_good h m)

/-- C9: every record produced by `extract_jobs_from_html`, from whichever
tier, has a non-empty title or a non-empty url. -/
theorem extract_jobs_nonempty_title_or_url :
    ∀ (events : List HtmlEvent) (html : String),
      ∀ j ∈ extract_jobs_from_html events html,
        getS j.title ≠ "" ∨ getS j.url ≠ "" := by
  intro events html j hj
  unfold extract_jobs_from_html at hj
  dsimp only at hj
  split_ifs at hj with h1 h2 h3
  · exact regex_fallback_good html j hj
  · exact linkFallback_good _ j hj
  · exact regex_fallback_good html j hj
  · exact runParser_jobs_good events j hj

/-- C9 witness: `extract_jobs_nonempty_title_or_url` at the concrete
job-card document and the record it extracts. -/
theorem extract_jobs_nonempty_witness :
    getS cardJob.title ≠ "" ∨ getS cardJob.url ≠ "" :=
  extract_jobs_nonempty_title_or_url evCard "" cardJob (by decide)

/-- C10: the regex fallback emits a record only for a match whose
tag-stripped, whitespace-trimmed inner text is strictly longer than 3
characters; hence a document all of whose pattern matches carry inner text
of length at most 3 yields the empty sequence. -/
theorem regex_fallback_min_length :
    ∀ html : String,
      (∀ j ∈ regex_fallback html,
        ∃ t, j.title = some t ∧ 3 < t.length) ∧
      (((findIter html.toList).all
          (fun m => (pyStrip (String.mk (stripTags m.2))).length ≤ 3)) = true →
        regex_fallback html = []) := by
  have aux1 : ∀ (ms : List (List Char × List Char)) (acc : List Job),
      (∀ j ∈ acc, ∃ t, j.title = some t ∧ 3 < t.length) →
      ∀ j ∈ ms.foldl regexStep acc, ∃ t, j.title = some t ∧ 3 < t.length := by
    intro ms
    induction ms with
    | nil => intro acc h; simpa using h
    | cons m t ih =>
        intro acc h
        simp only [List.foldl_cons]
        apply ih
        unfold regexStep
        dsimp only
        split_ifs with hc
        · intro j hj
          simp only [List.mem_append, List.mem_singleton] at hj
          rcases hj with hj | rfl
          · exact h j hj
          · exact ⟨_, mkFallbackJob_title _ _, hc.2⟩
        · exact h
  have aux2 : ∀ (ms : List (List Char × List Char)),
      (∀ m ∈ ms, (pyStrip (String.mk (stripTags m.2))).length ≤ 3) →
      ∀ acc : List Job, ms.foldl regexStep acc = acc := by
    intro ms
    induction ms with
    | nil => intro _ acc; rfl
    | cons m t ih =>
        intro h acc
        simp only [List.foldl_cons]
        have hm := h m (List.mem_cons_self _ _)
        have hstep : regexStep acc m = acc := by
          unfold regexStep
          dsimp only
          rw [if_neg]
          intro hc
          omega
        rw [hstep]
        exact ih (fun x hx => h x (List.mem_cons_of_mem _ hx)) acc
  intro html
  refine ⟨aux1 _ [] (by simp), ?_⟩
  intro hall
  exact aux2 _ (fun m hm => by simpa using List.all_eq_true.mp hall m hm) []

/-- C10 witness: the conjuncts of `regex_fallback_min_length` at concrete
documents — a 4-character anchor text yields a record whose title is
longer than 3, and a document whose only anchor text has length 3 yields
nothing. -/
theorem regex_fallback_min_length_witness :
    (∃ t, (mkFallbackJob "/basketball-jobs/x/y" "abcd").title = some t ∧
        3 < t.length) ∧
    regex_fallback shortAnchorHtml = [] :=
  ⟨(regex_fallback_min_length longAnchorHtml).1
      (mkFallbackJob "/basketball-jobs/x/y" "abcd") (by decide),
   (regex_fallback_min_length shortAnchorHtml).2 (by decide)⟩

end WaybackScraper
